import Mathlib

/-!
Shallow embedding of `matchengine/typing/matchengine_types.py` (sumedhasaxena/matchengine-V2).

Python dictionaries are embedded as insertion-ordered association lists
(`PyDict`); Python `None` defaults become `Option`; methods that mutate
`self` become state-passing functions returning the new object; methods
that can `raise` return `Except String`.  `copy.deepcopy` of a pure value
is the value itself; the aliasing content of deep copies is treated in a
separate heap-based model at the end of the file.
-/

namespace Matchengine

/-- Nested Python values (scalars, lists, dicts) as they appear in query
fragments and criteria mappings. -/
inductive NObj where
  | null
  | bool (b : Bool)
  | int (n : Int)
  | str (s : String)
  | list (xs : List NObj)
  | dict (kvs : List (String × NObj))

/-- Insertion sort used to canonicalise the encoded entries of a dict,
making the digest invariant to key insertion order. -/
def insertStr (s : String) : List String → List String
  | [] => [s]
  | t :: rest => if s ≤ t then s :: t :: rest else t :: insertStr s rest

def sortStrs : List String → List String
  | [] => []
  | s :: rest => insertStr s (sortStrs rest)

def joinStrs : List String → String
  | [] => ""
  | s :: rest => s ++ ";" ++ joinStrs rest

mutual
/-- Modelled from the spec: `nested_object_hash` lives in
`matchengine/utilities/object_comparison.py`, which is not part of the
available sources.  Per the spec's Content Hasher contract it is a stable
digest of a nested mapping/sequence/scalar structure, invariant to key
insertion order but sensitive to mapping keys, sequence order, and scalar
values/types.  We model the digest as a canonical serialisation in which
dict entries are sorted. -/
def nhash : NObj → String
  | NObj.null => "N"
  | NObj.bool b => if b then "B1" else "B0"
  | NObj.int n => "I" ++ toString n
  | NObj.str s => "S" ++ toString s.length ++ ":" ++ s
  | NObj.list xs => "L(" ++ joinStrs (nhashList xs) ++ ")"
  | NObj.dict kvs => "D(" ++ joinStrs (sortStrs (nhashPairs kvs)) ++ ")"

def nhashList : List NObj → List String
  | [] => []
  | x :: xs => nhash x :: nhashList xs

def nhashPairs : List (String × NObj) → List String
  | [] => []
  | (k, v) :: rest => ("S" ++ toString k.length ++ ":" ++ k ++ "=" ++ nhash v) :: nhashPairs rest
end

/-- Modelled from the spec: the content hasher entry point. -/
def nested_object_hash (o : NObj) : String := nhash o

/-- A Python dict: insertion-ordered association list with unique keys
maintained by `dictSet`. -/
abbrev PyDict := List (String × NObj)

/-- Python `d[key] = value`: replace in place when the key exists,
append otherwise (Python 3.7+ preserves insertion order). -/
def dictSet (d : PyDict) (k : String) (v : NObj) : PyDict :=
  if d.any (fun p => p.1 == k) then
    d.map (fun p => if p.1 == k then (k, v) else p)
  else
    d ++ [(k, v)]

/-- `MatchCriteria.__init__(criteria, depth)`. -/
structure MatchCriteria where
  criteria : PyDict
  depth : Nat

/-- `MatchCriterion.__slots__ = ("criteria_list", "_hash")`. -/
structure MatchCriterion where
  criteria_list : List MatchCriteria
  i_hash : Option String

/-- `MatchCriterion.__init__(criteria_list)`: `self._hash = None`. -/
def MatchCriterion.init (criteria_list : List MatchCriteria) : MatchCriterion :=
  ⟨criteria_list, none⟩

/-- `MatchCriterion.add_criteria`: `self._hash = None; self.criteria_list.append(criteria)`. -/
def MatchCriterion.add_criteria (m : MatchCriterion) (c : MatchCriteria) : MatchCriterion :=
  { m with i_hash := none, criteria_list := m.criteria_list ++ [c] }

/-- `MatchCriterion.hash`: memoized
`nested_object_hash({"query": [criteria.criteria for criteria in self.criteria_list]})`.
Returns the hash together with the (possibly memo-updated) object. -/
def MatchCriterion.hash (m : MatchCriterion) : String × MatchCriterion :=
  match m.i_hash with
  | some h => (h, m)
  | none =>
    let h := nested_object_hash
      (NObj.dict [("query", NObj.list (m.criteria_list.map (fun c => NObj.dict c.criteria)))])
    (h, { m with i_hash := some h })

/-- `QueryPart.__slots__ = ("mcq_invalidating", "render", "negate", "_query", "_hash")`. -/
structure QueryPart where
  mcq_invalidating : Bool
  render : Bool
  negate : Bool
  i_query : PyDict
  i_hash : Option String

/-- `QueryPart.__init__(query, negate, render, mcq_invalidating, _hash=None)`. -/
def QueryPart.init (query : PyDict) (negate render mcq_invalidating : Bool)
    (h : Option String) : QueryPart :=
  ⟨mcq_invalidating, render, negate, query, h⟩

/-- `QueryPart.__init__` with the `_hash=None` default. -/
def QueryPart.initDefault (query : PyDict) (negate render mcq_invalidating : Bool) : QueryPart :=
  QueryPart.init query negate render mcq_invalidating none

/-- `QueryPart.query` property: `copy.deepcopy(self._query)`; in the pure
value model the deep copy is the value itself (aliasing is treated in the
heap model below). -/
def QueryPart.query (p : QueryPart) : PyDict := p.i_query

/-- `QueryPart.hash`: memoized `nested_object_hash(self.query)`.  Note the
Python computes the hash of the deep copy `self.query`, whose value equals
`self._query`. -/
def QueryPart.hash (p : QueryPart) : String × QueryPart :=
  match p.i_hash with
  | some h => (h, p)
  | none =>
    let h := nested_object_hash (NObj.dict p.i_query)
    (h, { p with i_hash := some h })

/-- Value component of `QueryPart.hash`. -/
def QueryPart.hashVal (p : QueryPart) : String := (p.hash).1

/-- `QueryPart.set_query_attr(key, value)`: `self._query[key] = value`.
The memoized `_hash` is NOT cleared by the source. -/
def QueryPart.set_query_attr (p : QueryPart) (key : String) (value : NObj) : QueryPart :=
  { p with i_query := dictSet p.i_query key value }

/-- `QueryNode.__slots__`: `query_level, query_depth, query_parts, exclusion,
is_finalized, _hash, _raw_query, _raw_query_hash, sibling_nodes`.  The
`sibling_nodes` slot (always set to `None` by `__init__` and never touched
by any method in this file) is omitted: Lean structures cannot be
recursive, and no claim concerns the sibling linkage. -/
structure QueryNode where
  query_level : String
  query_depth : Nat
  query_parts : List QueryPart
  exclusion : Option Bool
  is_finalized : Bool
  i_hash : Option String
  i_raw_query : Option PyDict
  i_raw_query_hash : Option String

/-- `QueryNode.__init__` with its Python argument order; `sibling_nodes`
is set to `None` there. -/
def QueryNode.init (query_level : String) (query_depth : Nat)
    (query_parts : List QueryPart) (exclusion : Option Bool) (is_finalized : Bool)
    (h : Option String) (raw_query : Option PyDict) (raw_query_hash : Option String) :
    QueryNode :=
  ⟨query_level, query_depth, query_parts, exclusion, is_finalized, h, raw_query, raw_query_hash⟩

/-- `QueryNode.__init__` with the Python defaults
`exclusion=None, is_finalized=False, _hash=None, _raw_query=None, _raw_query_hash=None`. -/
def QueryNode.initDefault (query_level : String) (query_depth : Nat)
    (query_parts : List QueryPart) : QueryNode :=
  QueryNode.init query_level query_depth query_parts none false none none none

/-- Python `exclusion` slot value (None / bool) as an `NObj` for hashing. -/
def exclusionObj : Option Bool → NObj
  | none => NObj.null
  | some b => NObj.bool b

/-- `QueryNode.hash`: memoized
`nested_object_hash({"_tmp1": [query_part.hash() for query_part in self.query_parts], "_tmp2": self.exclusion})`.
Each `query_part.hash()` call also memoizes into the part, so the updated
node carries the memo-updated parts. -/
def QueryNode.hash (q : QueryNode) : String × QueryNode :=
  match q.i_hash with
  | some h => (h, q)
  | none =>
    let h := nested_object_hash (NObj.dict
      [("_tmp1", NObj.list (q.query_parts.map (fun p => NObj.str p.hashVal))),
       ("_tmp2", exclusionObj q.exclusion)])
    (h, { q with i_hash := some h,
                 query_parts := q.query_parts.map (fun p => (p.hash).2) })

/-- `QueryNode.add_query_part`: clears `_hash`, `_raw_query`,
`_raw_query_hash` and appends the part.  The source performs NO
finalization check here. -/
def QueryNode.add_query_part (q : QueryNode) (p : QueryPart) : QueryNode :=
  { q with i_hash := none, i_raw_query := none, i_raw_query_hash := none,
           query_parts := q.query_parts ++ [p] }

/-- `QueryNode._extract_raw_query`:
`{key: value for query_part in self.query_parts for key, value in query_part.query.items() if query_part.render}`. -/
def QueryNode.extract_raw_query_aux (q : QueryNode) : PyDict :=
  q.query_parts.foldl
    (fun acc p =>
      if p.render then p.query.foldl (fun a kv => dictSet a kv.1 kv.2) acc else acc)
    []

/-- `QueryNode.extract_raw_query`: before finalization, recompute from the
current parts on every call; after finalization, memoize `_raw_query` once
and return `copy.deepcopy(self._raw_query)` (the value, in this model). -/
def QueryNode.extract_raw_query (q : QueryNode) : PyDict × QueryNode :=
  if q.is_finalized then
    match q.i_raw_query with
    | some rq => (rq, q)
    | none =>
      let rq := q.extract_raw_query_aux
      (rq, { q with i_raw_query := some rq })
  else
    (q.extract_raw_query_aux, q)

/-- `QueryNode.raw_query_hash`: returns the memoized `_raw_query_hash` when
present; otherwise raises `Exception("Query node is not finalized")` when
not finalized, else memoizes `nested_object_hash(self.extract_raw_query())`. -/
def QueryNode.raw_query_hash (q : QueryNode) : Except String (String × QueryNode) :=
  match q.i_raw_query_hash with
  | some h => Except.ok (h, q)
  | none =>
    if q.is_finalized then
      let rqq := q.extract_raw_query
      let h := nested_object_hash (NObj.dict rqq.1)
      Except.ok (h, { rqq.2 with i_raw_query_hash := some h })
    else
      Except.error "Query node is not finalized"

/-- `QueryNode.finalize`: `self.is_finalized = True`. -/
def QueryNode.finalize (q : QueryNode) : QueryNode :=
  { q with is_finalized := true }

/-- `QueryNodeContainer.__init__(query_nodes)`. -/
structure QueryNodeContainer where
  query_nodes : List QueryNode

/-- The value bound to `MultiCollectionQuery.clinical`.  In the source the
`clinical` parameter's default is `clinical=List[QueryNodeContainer]` — the
typing expression itself (a `typing` object), not an empty list — so the
field holds either that typing object or an actual list of containers. -/
inductive ClinicalArg where
  | typeExpression
  | containers (cs : List QueryNodeContainer)

/-- `MultiCollectionQuery.__init__(genomic, clinical=List[QueryNodeContainer])`. -/
structure MultiCollectionQuery where
  genomic : List QueryNodeContainer
  clinical : ClinicalArg

/-- `MultiCollectionQuery.__init__` with both arguments supplied. -/
def MultiCollectionQuery.init (genomic : List QueryNodeContainer)
    (clinical : ClinicalArg) : MultiCollectionQuery :=
  ⟨genomic, clinical⟩

/-- `MultiCollectionQuery(genomic)` with only the genomic argument: the
`clinical` parameter takes its default, the typing expression
`List[QueryNodeContainer]`. -/
def MultiCollectionQuery.initGenomicOnly (genomic : List QueryNodeContainer) :
    MultiCollectionQuery :=
  MultiCollectionQuery.init genomic ClinicalArg.typeExpression

/-- `QueryTransformerResult.__slots__ = ("results")`. -/
structure QueryTransformerResult where
  results : List QueryPart

/-- `QueryTransformerResult.__init__(query_clause=None, negate=None, render=True,
mcq_invalidating=False)`: when `query_clause` is given without `negate`, raises
`Exception("If adding query result directly to results container, both Negate
and Query must be specified")`; with both, appends one `QueryPart`. -/
def QueryTransformerResult.init (query_clause : Option PyDict) (negate : Option Bool)
    (render : Bool) (mcq_invalidating : Bool) : Except String QueryTransformerResult :=
  match query_clause with
  | none => Except.ok ⟨[]⟩
  | some qc =>
    match negate with
    | some n => Except.ok ⟨[QueryPart.initDefault qc n render mcq_invalidating]⟩
    | none => Except.error
        "If adding query result directly to results container, both Negate and Query must be specified"

/-- `QueryTransformerResult.add_result(query_clause, negate, render=True,
mcq_invalidating=False)`. -/
def QueryTransformerResult.add_result (r : QueryTransformerResult) (query_clause : PyDict)
    (negate : Bool) (render : Bool) (mcq_invalidating : Bool) : QueryTransformerResult :=
  ⟨r.results ++ [QueryPart.initDefault query_clause negate render mcq_invalidating]⟩

/-- Modelled from the spec: the record-inclusion policy consumed by the
Match Tree Compiler (`match_on_deceased` / `match_on_closed` in the
integration tests).  The compiler itself is not among the available
sources; per spec §4.2, filtering "is applied declaratively … by excluding
clauses whose owning clause data fails the active inclusion policy
(configurable: include deceased patients, include closed arms)". -/
structure InclusionPolicy where
  match_on_deceased : Bool
  match_on_closed : Bool
deriving DecidableEq

/-- Modelled from the spec: one potential match over a fixed input data
set — a clinical record (alive or deceased), the owning eligibility
clause (open or closed), and whether the record satisfies the clause's
criteria independently of any policy. -/
structure MatchCandidate where
  record_is_alive : Bool
  clause_is_open : Bool
  satisfies_criteria : Bool
deriving DecidableEq

/-- Modelled from the spec: a candidate produces a match under a policy
iff deceased records are included or the record is alive, closed clauses
are included or the clause is open, and the criteria are satisfied. -/
def candidateIncluded (pol : InclusionPolicy) (c : MatchCandidate) : Bool :=
  (pol.match_on_deceased || c.record_is_alive) &&
  (pol.match_on_closed || c.clause_is_open) &&
  c.satisfies_criteria

/-- Modelled from the spec: the set of matches produced over a fixed
input data set under a record-inclusion policy. -/
def matchesUnderPolicy (pol : InclusionPolicy) (input : List MatchCandidate) :
    List MatchCandidate :=
  input.filter (candidateIncluded pol)

/-- Policy `q` is at least as permissive as `p`: every record class and
clause class `p` includes, `q` also includes. -/
def InclusionPolicy.le (p q : InclusionPolicy) : Prop :=
  (p.match_on_deceased = true → q.match_on_deceased = true) ∧
  (p.match_on_closed = true → q.match_on_closed = true)

instance (p q : InclusionPolicy) : Decidable (InclusionPolicy.le p q) := by
  unfold InclusionPolicy.le
  infer_instance

/-! Helper lemmas (shared; not claim theorems). -/

/-- A `QueryPart` whose memo slot is empty hashes to the content hash of
its stored fragment. -/
theorem QueryPart.hashVal_of_none (p : QueryPart) (h : p.i_hash = none) :
    p.hashVal = nested_object_hash (NObj.dict p.i_query) := by
  simp [QueryPart.hashVal, QueryPart.hash, h]

/-- A `QueryPart` whose memo slot is filled hashes to the memoized value. -/
theorem QueryPart.hashVal_of_some (p : QueryPart) (h : String)
    (hp : p.i_hash = some h) : p.hashVal = h := by
  simp [QueryPart.hashVal, QueryPart.hash, hp]

/-- Guarded fold equals the fold over the filtered list. -/
theorem foldl_guard_eq_filter {α β : Type} (pr : β → Bool) (g : α → β → α) :
    ∀ (l : List β) (init : α),
      l.foldl (fun acc b => if pr b then g acc b else acc) init =
        (l.filter pr).foldl g init := by
  intro l
  induction l with
  | nil => intro init; rfl
  | cons b rest ih =>
    intro init
    by_cases hb : pr b
    · simp [List.filter, hb, ih]
    · simp [List.filter, hb, ih]

/-! Concrete objects used by witnesses and counterexamples. -/

def partGender : QueryPart :=
  QueryPart.initDefault [("GENDER", NObj.str "Male")] false true false

def partBraf : QueryPart :=
  QueryPart.initDefault [("TRUE_HUGO_SYMBOL", NObj.str "BRAF")] false true false

def partNoRender : QueryPart :=
  QueryPart.initDefault [("SHOW_IN_UI", NObj.bool true)] false false false

def nodeClinical : QueryNode := QueryNode.initDefault "clinical" 0 [partGender]

def nodeFinalized : QueryNode := (QueryNode.initDefault "genomic" 0 [partBraf]).finalize

/-! Claim theorems. -/

/-- Claim C1: for every `QueryNode` constructed without a precomputed
raw-query hash, `raw_query_hash()` before `finalize()` fails with the
unfinalized-node error; after `finalize()` it succeeds, and a repeated
call returns the identical hash value. -/
theorem raw_query_hash_requires_finalization (q : QueryNode)
    (hq : q.i_raw_query_hash = none) :
    (q.is_finalized = false →
      q.raw_query_hash = Except.error "Query node is not finalized") ∧
    ∃ h q', (q.finalize).raw_query_hash = Except.ok (h, q') ∧
      q'.raw_query_hash = Except.ok (h, q') := by
  constructor
  · intro hf
    simp [QueryNode.raw_query_hash, hq, hf]
  · refine ⟨nested_object_hash (NObj.dict ((q.finalize).extract_raw_query).1),
      { ((q.finalize).extract_raw_query).2 with
          i_raw_query_hash :=
            some (nested_object_hash (NObj.dict ((q.finalize).extract_raw_query).1)) },
      ?_, ?_⟩
    · simp [QueryNode.raw_query_hash, QueryNode.finalize, hq]
    · simp [QueryNode.raw_query_hash]

/-- Claim C1 witness: instantiated at a concrete unfinalized node. -/
theorem raw_query_hash_requires_finalization_witness :
    (nodeClinical.is_finalized = false →
      nodeClinical.raw_query_hash = Except.error "Query node is not finalized") ∧
    ∃ h q', (nodeClinical.finalize).raw_query_hash = Except.ok (h, q') ∧
      q'.raw_query_hash = Except.ok (h, q') :=
  raw_query_hash_requires_finalization nodeClinical rfl

/-- Claim C2 counterexample: on a concrete finalized node,
`add_query_part` does not fail — it changes the node's query parts
(their count grows by one), contradicting "fails with an immutable query
error, leaving q's query parts … unchanged". -/
theorem add_query_part_after_finalize_mutates :
    nodeFinalized.is_finalized = true ∧
    (nodeFinalized.add_query_part partGender).query_parts.length ≠
      nodeFinalized.query_parts.length := by
  exact ⟨rfl, by decide⟩

/-- Claim C2 amended: `add_query_part` performs no finalization check:
on a finalized node it succeeds, appending the part and clearing the
memoized hash, raw query, and raw-query hash, and leaves the node
finalized.  No "immutable query" error exists in the source. -/
theorem add_query_part_no_finalization_check (q : QueryNode) (p : QueryPart)
    (hfin : q.is_finalized = true) :
    q.add_query_part p = { q with
      i_hash := none
      i_raw_query := none
      i_raw_query_hash := none
      query_parts := q.query_parts ++ [p] } ∧
    (q.add_query_part p).is_finalized = true := by
  exact ⟨rfl, by simp [QueryNode.add_query_part, hfin]⟩

/-- Claim C2 amended witness: instantiated at a concrete finalized node. -/
theorem add_query_part_no_finalization_check_witness :
    nodeFinalized.add_query_part partGender = { nodeFinalized with
      i_hash := none
      i_raw_query := none
      i_raw_query_hash := none
      query_parts := nodeFinalized.query_parts ++ [partGender] } ∧
    (nodeFinalized.add_query_part partGender).is_finalized = true :=
  add_query_part_no_finalization_check nodeFinalized partGender rfl

/-- Claim C3: two `QueryNode`s built independently from query parts with
identical fragment content (no precomputed hashes) and the same exclusion
flag have equal `hash()` values — node identity is the content hash of its
parts' hashes plus its exclusion flag, regardless of level or depth. -/
theorem querynode_hash_content_determined (q1 q2 : QueryNode)
    (h1 : q1.i_hash = none) (h2 : q2.i_hash = none)
    (hp : q1.query_parts.map (fun p => p.i_query) =
          q2.query_parts.map (fun p => p.i_query))
    (hh1 : ∀ p ∈ q1.query_parts, p.i_hash = none)
    (hh2 : ∀ p ∈ q2.query_parts, p.i_hash = none)
    (he : q1.exclusion = q2.exclusion) :
    (q1.hash).1 = (q2.hash).1 := by
  have key : ∀ (q : QueryNode), (∀ p ∈ q.query_parts, p.i_hash = none) →
      q.query_parts.map (fun p => NObj.str p.hashVal) =
        (q.query_parts.map (fun p => p.i_query)).map
          (fun d => NObj.str (nested_object_hash (NObj.dict d))) := by
    intro q hq
    rw [List.map_map]
    apply List.map_congr_left
    intro p hpmem
    simp [Function.comp, QueryPart.hashVal_of_none p (hq p hpmem)]
  simp only [QueryNode.hash, h1, h2]
  rw [key q1 hh1, key q2 hh2, hp, he]

/-- Claim C3 witness: two concrete nodes with different levels and depths
but identical part content and exclusion flag. -/
theorem querynode_hash_content_determined_witness :
    ((QueryNode.init "clinical" 1 [partGender] (some false) false none none none).hash).1 =
    ((QueryNode.init "genomic" 7 [partGender] (some false) true none none none).hash).1 :=
  querynode_hash_content_determined
    (QueryNode.init "clinical" 1 [partGender] (some false) false none none none)
    (QueryNode.init "genomic" 7 [partGender] (some false) true none none none)
    rfl rfl rfl (by decide) (by decide) rfl

/-- Claim C4: `extract_raw_query` merges exactly the rendered parts'
key/value pairs (non-rendered parts contribute nothing); while not
finalized it is recomputed from the current parts on every call with no
state change; once finalized it is computed once, memoized, and then
served from the memo. -/
theorem extract_raw_query_semantics (q : QueryNode) :
    (q.extract_raw_query_aux =
      (q.query_parts.filter (fun p => p.render)).foldl
        (fun acc p => p.query.foldl (fun a kv => dictSet a kv.1 kv.2) acc) []) ∧
    (∀ parts1 parts2 p, p.render = false →
      QueryNode.extract_raw_query_aux { q with query_parts := parts1 ++ p :: parts2 } =
      QueryNode.extract_raw_query_aux { q with query_parts := parts1 ++ parts2 }) ∧
    (q.is_finalized = false → q.extract_raw_query = (q.extract_raw_query_aux, q)) ∧
    (q.is_finalized = true → q.i_raw_query = none →
      q.extract_raw_query =
        (q.extract_raw_query_aux, { q with i_raw_query := some q.extract_raw_query_aux })) ∧
    (∀ rq, q.is_finalized = true → q.i_raw_query = some rq →
      q.extract_raw_query = (rq, q)) := by
  refine ⟨?_, ?_, ?_, ?_, ?_⟩
  · exact foldl_guard_eq_filter (fun p => p.render)
      (fun acc p => p.query.foldl (fun a kv => dictSet a kv.1 kv.2) acc) q.query_parts []
  · intro parts1 parts2 p hr
    simp [QueryNode.extract_raw_query_aux, List.foldl_append, hr]
  · intro hf
    simp [QueryNode.extract_raw_query, hf]
  · intro hf hrq
    simp [QueryNode.extract_raw_query, hf, hrq]
  · intro rq hf hrq
    simp [QueryNode.extract_raw_query, hf, hrq]

/-- Claim C4 witness: the branches instantiated at concrete nodes — an
unfinalized node, a finalized node with empty memo, and a finalized node
with filled memo. -/
theorem extract_raw_query_semantics_witness :
    (nodeClinical.extract_raw_query_aux =
      (nodeClinical.query_parts.filter (fun p => p.render)).foldl
        (fun acc p => p.query.foldl (fun a kv => dictSet a kv.1 kv.2) acc) []) ∧
    (QueryNode.extract_raw_query_aux
        { nodeClinical with query_parts := [partGender] ++ partNoRender :: [partBraf] } =
      QueryNode.extract_raw_query_aux
        { nodeClinical with query_parts := [partGender] ++ [partBraf] }) ∧
    (nodeClinical.extract_raw_query = (nodeClinical.extract_raw_query_aux, nodeClinical)) ∧
    (nodeFinalized.extract_raw_query =
      (nodeFinalized.extract_raw_query_aux,
        { nodeFinalized with i_raw_query := some nodeFinalized.extract_raw_query_aux })) ∧
    (((nodeFinalized.extract_raw_query).2).extract_raw_query =
      (nodeFinalized.extract_raw_query_aux, (nodeFinalized.extract_raw_query).2)) := by
  refine ⟨(extract_raw_query_semantics nodeClinical).1,
    (extract_raw_query_semantics nodeClinical).2.1 [partGender] [partBraf] partNoRender rfl,
    (extract_raw_query_semantics nodeClinical).2.2.1 rfl,
    (extract_raw_query_semantics nodeFinalized).2.2.2.1 rfl rfl,
    (extract_raw_query_semantics (nodeFinalized.extract_raw_query).2).2.2.2.2
      nodeFinalized.extract_raw_query_aux rfl rfl⟩

/-- Claim C5: `MatchCriterion.hash` is memoized — hashing the object
returned by `hash` changes nothing — and `add_criteria` invalidates the
memo: after `add_criteria` the hash equals that of a freshly constructed
`MatchCriterion` over the extended criteria list. -/
theorem matchcriterion_hash_memoized_invalidated (m : MatchCriterion) (c : MatchCriteria) :
    ((m.hash).2).hash = m.hash ∧
    ((m.add_criteria c).hash).1 =
      ((MatchCriterion.init (m.criteria_list ++ [c])).hash).1 := by
  constructor
  · cases hm : m.i_hash with
    | some h => simp [MatchCriterion.hash, hm]
    | none => simp [MatchCriterion.hash, hm]
  · rfl

/-- Claim C7 counterexample: on a concrete `QueryPart`, after `hash()` has
memoized and `set_query_attr` then changes the fragment, `hash()` no
longer equals the content hash of the current fragment — the memoized
hash goes stale. -/
theorem querypart_hash_goes_stale :
    ((((QueryPart.initDefault [("AGE", NObj.int 1)] false true false).hash).2).set_query_attr
        "AGE" (NObj.int 2)).hashVal ≠
      nested_object_hash (NObj.dict
        ((((QueryPart.initDefault [("AGE", NObj.int 1)] false true false).hash).2).set_query_attr
            "AGE" (NObj.int 2)).i_query) := by
  decide

/-- Claim C7 amended: `QueryPart.hash` returns the memoized value when one
exists and the content hash of the current fragment otherwise;
`set_query_attr` updates the fragment but does NOT clear the memo, so a
hash computed before a mutation is not recomputed afterwards (the hash
reflects the fragment as of the first `hash()` call, not necessarily the
current fragment). -/
theorem querypart_hash_memo_not_invalidated (p : QueryPart) (k : String) (v : NObj) :
    ((p.set_query_attr k v).i_hash = p.i_hash) ∧
    ((p.set_query_attr k v).i_query = dictSet p.i_query k v) ∧
    (p.i_hash = none → p.hashVal = nested_object_hash (NObj.dict p.i_query)) ∧
    (∀ h, p.i_hash = some h → p.hashVal = h) := by
  refine ⟨rfl, rfl, ?_, ?_⟩
  · intro hn
    exact QueryPart.hashVal_of_none p hn
  · intro h hs
    exact QueryPart.hashVal_of_some p h hs

/-- Claim C7 amended witness: instantiated at a part with empty memo and
at a part with filled memo. -/
theorem querypart_hash_memo_not_invalidated_witness :
    ((partGender.set_query_attr "AGE" (NObj.int 2)).i_hash = partGender.i_hash) ∧
    ((partGender.set_query_attr "AGE" (NObj.int 2)).i_query =
      dictSet partGender.i_query "AGE" (NObj.int 2)) ∧
    (partGender.hashVal = nested_object_hash (NObj.dict partGender.i_query)) ∧
    (((partGender.hash).2).hashVal = (partGender.hash).1) :=
  ⟨(querypart_hash_memo_not_invalidated partGender "AGE" (NObj.int 2)).1,
   (querypart_hash_memo_not_invalidated partGender "AGE" (NObj.int 2)).2.1,
   (querypart_hash_memo_not_invalidated partGender "AGE" (NObj.int 2)).2.2.1 rfl,
   (querypart_hash_memo_not_invalidated ((partGender.hash).2) "AGE" (NObj.int 2)).2.2.2
     ((partGender.hash).1) rfl⟩

/-- Claim C8: the record-inclusion policy is monotonic — every match
produced under a policy is also produced under any policy at least as
permissive over the same input; loosening the policy never removes a
match. -/
theorem inclusion_policy_monotonic (p q : InclusionPolicy) (input : List MatchCandidate)
    (hle : InclusionPolicy.le p q) :
    ∀ c ∈ matchesUnderPolicy p input, c ∈ matchesUnderPolicy q input := by
  intro c hc
  rw [matchesUnderPolicy, List.mem_filter] at hc ⊢
  refine ⟨hc.1, ?_⟩
  have h2 := hc.2
  simp only [candidateIncluded, Bool.and_eq_true, Bool.or_eq_true] at h2 ⊢
  obtain ⟨⟨hd, hcl⟩, hsat⟩ := h2
  refine ⟨⟨?_, ?_⟩, hsat⟩
  · rcases hd with hd | hd
    · exact Or.inl (hle.1 hd)
    · exact Or.inr hd
  · rcases hcl with hcl | hcl
    · exact Or.inl (hle.2 hcl)
    · exact Or.inr hcl

/-- Claim C8 witness: a concrete match produced under the strictest
policy is still produced under the fully permissive policy over the same
concrete input data set. -/
theorem inclusion_policy_monotonic_witness :
    (⟨true, true, true⟩ : MatchCandidate) ∈ matchesUnderPolicy ⟨true, true⟩
        [⟨true, true, true⟩, ⟨false, true, true⟩, ⟨true, false, true⟩, ⟨false, false, false⟩] :=
  inclusion_policy_monotonic ⟨false, false⟩ ⟨true, true⟩
    [⟨true, true, true⟩, ⟨false, true, true⟩, ⟨true, false, true⟩, ⟨false, false, false⟩]
    (by decide) ⟨true, true, true⟩ (by decide)

/-- Claim C9: constructing a `MultiCollectionQuery` with only the genomic
argument leaves `clinical` bound to the typing expression
`List[QueryNodeContainer]` — not a sequence of `QueryNodeContainer`, and
in particular not an empty one. -/
theorem multicollectionquery_clinical_default (g : List QueryNodeContainer) :
    (MultiCollectionQuery.initGenomicOnly g).clinical = ClinicalArg.typeExpression ∧
    ∀ cs, (MultiCollectionQuery.initGenomicOnly g).clinical ≠ ClinicalArg.containers cs := by
  exact ⟨rfl, fun cs h => ClinicalArg.noConfusion h⟩

/-- Claim C10: `QueryTransformerResult` constructed with a query clause
but no negate flag raises the "both Negate and Query must be specified"
error (no `QueryPart` is produced); constructed with both, its results
list holds exactly one `QueryPart` carrying the given clause and flags. -/
theorem querytransformerresult_init_semantics :
    (∀ (qc : PyDict) (render mcq : Bool),
      QueryTransformerResult.init (some qc) none render mcq = Except.error
        "If adding query result directly to results container, both Negate and Query must be specified") ∧
    (∀ (qc : PyDict) (n : Bool) (render mcq : Bool),
      QueryTransformerResult.init (some qc) (some n) render mcq =
        Except.ok ⟨[QueryPart.initDefault qc n render mcq]⟩) :=
  ⟨fun _ _ _ => rfl, fun _ _ _ _ => rfl⟩

/-!
Heap model for the aliasing content of `copy.deepcopy` in the
`QueryPart.query` property.  A Python dict object lives at an address on
a heap; a stored value is a scalar or a reference to such an object.
Mutating a dict (at any nesting depth) is a `Heap.write` at that dict's
address.  `copy.deepcopy` is `deepcopyVal`: it rebuilds every reachable
dict at fresh addresses.  Recursion is fuelled; on well-formed
(bounded, hence acyclic) heaps enough fuel always exists.  Cyclic or
shared substructure (where Python's deepcopy memo preserves sharing) is
outside this model; the claim concerns tree-shaped query fragments.
-/

/-- A Python runtime value: a scalar, or a reference to a dict object on
the heap. -/
inductive HVal where
  | null
  | bool (b : Bool)
  | int (n : Int)
  | str (s : String)
  | ref (a : Nat)
deriving DecidableEq, Repr

/-- Stored content of one dict object. -/
abbrev HKvs := List (String × HVal)

/-- A heap: dict objects keyed by address, plus the next fresh address. -/
structure Heap where
  objs : List (Nat × HKvs)
  next : Nat
deriving DecidableEq, Repr

/-- Dereference an address. -/
def Heap.get (h : Heap) (a : Nat) : Option HKvs :=
  (h.objs.find? (fun p => p.1 == a)).map (fun p => p.2)

/-- Allocate a new dict object at the next fresh address. -/
def Heap.alloc (h : Heap) (kvs : HKvs) : HVal × Heap :=
  (HVal.ref h.next, ⟨h.objs ++ [(h.next, kvs)], h.next + 1⟩)

/-- Mutate the dict object at address `a` (covers updating any one of its
keys: the new content replaces the old). -/
def Heap.write (h : Heap) (a : Nat) (kvs : HKvs) : Heap :=
  ⟨h.objs.map (fun p => if p.1 == a then (a, kvs) else p), h.next⟩

/-- All references in a value point below `n`. -/
def HVal.bound (n : Nat) : HVal → Bool
  | HVal.ref a => decide (a < n)
  | _ => true

/-- All references in a value point at or above `n` (freshness). -/
def HVal.freshFrom (n : Nat) : HVal → Bool
  | HVal.ref a => decide (n ≤ a)
  | _ => true

/-- All values of a dict content are bound by `n`. -/
def kvsBound (n : Nat) (kvs : HKvs) : Bool :=
  kvs.all (fun kv => kv.2.bound n)

/-- Heap well-formedness: every object address and every stored reference
is below `next`. -/
def Heap.wfB (h : Heap) : Bool :=
  h.objs.all (fun p => decide (p.1 < h.next) && kvsBound h.next p.2)

mutual
/-- Read a value out of the heap into a pure nested structure (`NObj`). -/
def readVal : Nat → Heap → HVal → Option NObj
  | 0, _, _ => none
  | _ + 1, _, HVal.null => some NObj.null
  | _ + 1, _, HVal.bool b => some (NObj.bool b)
  | _ + 1, _, HVal.int n => some (NObj.int n)
  | _ + 1, _, HVal.str s => some (NObj.str s)
  | fuel + 1, h, HVal.ref a =>
    match h.get a with
    | none => none
    | some kvs => (readKvs fuel h kvs).map NObj.dict

def readKvs : Nat → Heap → HKvs → Option (List (String × NObj))
  | 0, _, _ => none
  | _ + 1, _, [] => some []
  | fuel + 1, h, (k, v) :: rest =>
    match readVal fuel h v, readKvs fuel h rest with
    | some t, some ts => some ((k, t) :: ts)
    | _, _ => none
end

mutual
/-- `copy.deepcopy` on the heap: rebuild every reachable dict object at a
fresh address, leaving the original objects untouched. -/
def deepcopyVal : Nat → Heap → HVal → Option (HVal × Heap)
  | 0, _, _ => none
  | _ + 1, h, HVal.null => some (HVal.null, h)
  | _ + 1, h, HVal.bool b => some (HVal.bool b, h)
  | _ + 1, h, HVal.int n => some (HVal.int n, h)
  | _ + 1, h, HVal.str s => some (HVal.str s, h)
  | fuel + 1, h, HVal.ref a =>
    match h.get a with
    | none => none
    | some kvs =>
      match deepcopyKvs fuel h kvs with
      | none => none
      | some (kvs2, h2) => some (h2.alloc kvs2)

def deepcopyKvs : Nat → Heap → HKvs → Option (HKvs × Heap)
  | 0, _, _ => none
  | _ + 1, h, [] => some ([], h)
  | fuel + 1, h, (k, v) :: rest =>
    match deepcopyVal fuel h v with
    | none => none
    | some (v2, h2) =>
      match deepcopyKvs fuel h2 rest with
      | none => none
      | some (rest2, h3) => some ((k, v2) :: rest2, h3)
end

/-- `QueryPart` in the heap model: `_query` is a reference to (or scalar
standing for) the stored fragment. -/
structure QueryPartH where
  mcq_invalidating : Bool
  render : Bool
  negate : Bool
  i_query : HVal
  i_hash : Option String

/-- `QueryPart.query` property in the heap model:
`copy.deepcopy(self._query)`. -/
def QueryPartH.query (p : QueryPartH) (fuel : Nat) (h : Heap) : Option (HVal × Heap) :=
  deepcopyVal fuel h p.i_query

/-- Content hash of the stored fragment as `QueryPart.hash` computes it
(`nested_object_hash(self.query)`, the hash of the fragment's content). -/
def QueryPartH.contentHash (p : QueryPartH) (fuel : Nat) (h : Heap) : Option String :=
  (readVal fuel h p.i_query).map nested_object_hash

/-! Heap lemmas (shared; not claim theorems). -/

theorem HVal.bound_mono {n m : Nat} (hnm : n ≤ m) {v : HVal} (hv : v.bound n = true) :
    v.bound m = true := by
  cases v with
  | ref a => simp only [HVal.bound, decide_eq_true_eq] at hv ⊢; omega
  | null => rfl
  | bool b => rfl
  | int k => rfl
  | str s => rfl

theorem HVal.freshFrom_mono_down {n m : Nat} (hnm : n ≤ m) {v : HVal}
    (hv : v.freshFrom m = true) : v.freshFrom n = true := by
  cases v with
  | ref a => simp only [HVal.freshFrom, decide_eq_true_eq] at hv ⊢; omega
  | null => rfl
  | bool b => rfl
  | int k => rfl
  | str s => rfl

theorem kvsBound_mono {n m : Nat} (hnm : n ≤ m) {kvs : HKvs}
    (hk : kvsBound n kvs = true) : kvsBound m kvs = true := by
  simp only [kvsBound, List.all_eq_true] at hk ⊢
  intro kv hkv
  exact HVal.bound_mono hnm (hk kv hkv)

/-- Propositional heap well-formedness. -/
def Heap.WF (h : Heap) : Prop :=
  ∀ p ∈ h.objs, p.1 < h.next ∧ kvsBound h.next p.2 = true

theorem Heap.WF_of_wfB {h : Heap} (hw : h.wfB = true) : h.WF := by
  intro p hp
  simp only [Heap.wfB, List.all_eq_true, Bool.and_eq_true, decide_eq_true_eq] at hw
  exact hw p hp

theorem Heap.get_mem {h : Heap} {a : Nat} {kvs : HKvs} (hg : h.get a = some kvs) :
    (a, kvs) ∈ h.objs := by
  unfold Heap.get at hg
  cases hfind : h.objs.find? (fun q => q.1 == a) with
  | none => rw [hfind] at hg; simp at hg
  | some q =>
    rw [hfind] at hg
    simp only [Option.map_some', Option.some.injEq] at hg
    have hmem := List.mem_of_find?_eq_some hfind
    have hkey := List.find?_some hfind
    obtain ⟨q1, q2⟩ := q
    simp only [Nat.beq_eq_true_eq] at hkey
    subst hkey
    subst hg
    exact hmem

/-- Heaps `h₁` and `h₂` agree on all addresses below `n`. -/
def heapAgreeBelow (n : Nat) (h₁ h₂ : Heap) : Prop :=
  ∀ a, a < n → h₂.get a = h₁.get a

/-- Every object stored below `n` has content bound by `n`. -/
def heapClosedBelow (n : Nat) (h : Heap) : Prop :=
  ∀ a kvs, h.get a = some kvs → a < n → kvsBound n kvs = true

theorem closedBelow_of_WF {h : Heap} (hw : h.WF) : heapClosedBelow h.next h := by
  intro a kvs hg _
  exact (hw _ (Heap.get_mem hg)).2

/-- `h'` extends `h`: all old objects are kept untouched, and every new
object lives at a fresh address. -/
def HeapExtends (h' h : Heap) : Prop :=
  h.next ≤ h'.next ∧ ∃ t, h'.objs = h.objs ++ t ∧
    ∀ p ∈ t, h.next ≤ p.1 ∧ p.1 < h'.next ∧ kvsBound h'.next p.2 = true

theorem heapExtends_refl (h : Heap) : HeapExtends h h :=
  ⟨Nat.le_refl _, [], by simp, by simp⟩

theorem heapExtends_trans {h₁ h₂ h₃ : Heap} (h21 : HeapExtends h₂ h₁)
    (h32 : HeapExtends h₃ h₂) : HeapExtends h₃ h₁ := by
  obtain ⟨hn1, t1, ho1, ht1⟩ := h21
  obtain ⟨hn2, t2, ho2, ht2⟩ := h32
  refine ⟨Nat.le_trans hn1 hn2, t1 ++ t2, by rw [ho2, ho1, List.append_assoc], ?_⟩
  intro p hp
  rcases List.mem_append.1 hp with hp | hp
  · have hq := ht1 p hp
    exact ⟨hq.1, Nat.lt_of_lt_of_le hq.2.1 hn2, kvsBound_mono hn2 hq.2.2⟩
  · have hq := ht2 p hp
    exact ⟨Nat.le_trans hn1 hq.1, hq.2.1, hq.2.2⟩

theorem heapExtends_alloc (h : Heap) (kvs : HKvs) (hb : kvsBound h.next kvs = true) :
    HeapExtends (h.alloc kvs).2 h := by
  refine ⟨Nat.le_succ _, [(h.next, kvs)], rfl, ?_⟩
  intro p hp
  simp only [List.mem_singleton] at hp
  subst hp
  exact ⟨Nat.le_refl _, Nat.lt_succ_self _, kvsBound_mono (Nat.le_succ _) hb⟩

theorem WF_extends {h h' : Heap} (hw : h.WF) (he : HeapExtends h' h) : h'.WF := by
  obtain ⟨hn, t, ho, ht⟩ := he
  intro p hp
  rw [ho] at hp
  rcases List.mem_append.1 hp with hp | hp
  · have hq := hw p hp
    exact ⟨Nat.lt_of_lt_of_le hq.1 hn, kvsBound_mono hn hq.2⟩
  · have hq := ht p hp
    exact ⟨hq.2.1, hq.2.2⟩

theorem extends_agreeBelow {h h' : Heap} (he : HeapExtends h' h) :
    heapAgreeBelow h.next h h' := by
  intro a ha
  obtain ⟨hn, t, ho, ht⟩ := he
  show h'.get a = h.get a
  unfold Heap.get
  rw [ho, List.find?_append]
  cases hf : h.objs.find? (fun p => p.1 == a) with
  | some p => simp
  | none =>
    have htn : t.find? (fun p => p.1 == a) = none := by
      rw [List.find?_eq_none]
      intro p hp
      have := (ht p hp).1
      simp only [Nat.beq_eq_true_eq]
      omega
    simp [htn]

theorem find?_write_ne {a b : Nat} (hne : a ≠ b) (c : HKvs) :
    ∀ (objs : List (Nat × HKvs)),
      (objs.map (fun p => if p.1 == b then (b, c) else p)).find? (fun p => p.1 == a) =
        objs.find? (fun p => p.1 == a) := by
  intro objs
  induction objs with
  | nil => rfl
  | cons p rest ih =>
    by_cases hpb : p.1 = b
    · have hpa : (p.1 == a) = false := by simp; omega
      have hba : (b == a) = false := by simp; omega
      simp only [List.map_cons, hpb]
      rw [if_pos (by simp)]
      rw [List.find?_cons_of_neg _ (by simp [hba]), List.find?_cons_of_neg _ (by simp [hpa])]
      exact ih
    · simp only [List.map_cons]
      rw [if_neg (by simp [hpb])]
      by_cases hpa : p.1 = a
      · rw [List.find?_cons_of_pos _ (by simp [hpa]), List.find?_cons_of_pos _ (by simp [hpa])]
      · rw [List.find?_cons_of_neg _ (by simp [hpa]), List.find?_cons_of_neg _ (by simp [hpa])]
        exact ih

theorem Heap.get_write_ne {h : Heap} {a b : Nat} (hne : a ≠ b) (c : HKvs) :
    (h.write b c).get a = h.get a := by
  unfold Heap.get Heap.write
  simp only
  rw [find?_write_ne hne c h.objs]

theorem WF_write {h : Heap} (hw : h.WF) {b : Nat} {c : HKvs}
    (hc : kvsBound h.next c = true) : (h.write b c).WF := by
  intro p hp
  simp only [Heap.write, List.mem_map] at hp
  obtain ⟨q, hq, hpq⟩ := hp
  show p.1 < h.next ∧ kvsBound h.next p.2 = true
  by_cases hqb : q.1 = b
  · rw [if_pos (by simp [hqb])] at hpq
    subst hpq
    exact ⟨hqb ▸ (hw q hq).1, hc⟩
  · rw [if_neg (by simp [hqb])] at hpq
    subst hpq
    exact hw q hq

theorem Heap.get_alloc {h : Heap} (hw : h.WF) (kvs : HKvs) :
    ((h.alloc kvs).2).get h.next = some kvs := by
  unfold Heap.get Heap.alloc
  simp only
  rw [List.find?_append]
  have hnone : h.objs.find? (fun p => p.1 == h.next) = none := by
    rw [List.find?_eq_none]
    intro p hp
    have := (hw p hp).1
    simp only [Nat.beq_eq_true_eq]
    omega
  simp [hnone]

theorem read_agree {n : Nat} {h₁ h₂ : Heap}
    (hcl : heapClosedBelow n h₁) (hag : heapAgreeBelow n h₁ h₂) :
    ∀ f : Nat,
      (∀ v, HVal.bound n v = true → readVal f h₂ v = readVal f h₁ v) ∧
      (∀ kvs, kvsBound n kvs = true → readKvs f h₂ kvs = readKvs f h₁ kvs) := by
  intro f
  induction f with
  | zero => exact ⟨fun v _ => rfl, fun kvs _ => rfl⟩
  | succ m ih =>
    constructor
    · intro v hv
      cases v with
      | null => rfl
      | bool b => rfl
      | int k => rfl
      | str s => rfl
      | ref a =>
        have ha : a < n := by simpa [HVal.bound] using hv
        simp only [readVal]
        rw [hag a ha]
        cases hg : h₁.get a with
        | none => simp
        | some kvs =>
          have hrw := ih.2 kvs (hcl a kvs hg ha)
          simp [hrw]
    · intro kvs hk
      cases kvs with
      | nil => rfl
      | cons kv rest =>
        obtain ⟨k, v⟩ := kv
        simp only [kvsBound, List.all_cons, Bool.and_eq_true] at hk
        simp only [readKvs]
        rw [ih.1 v hk.1, ih.2 rest hk.2]

theorem readVal_agree {n : Nat} {h₁ h₂ : Heap}
    (hcl : heapClosedBelow n h₁) (hag : heapAgreeBelow n h₁ h₂) (f : Nat) :
    ∀ v, HVal.bound n v = true → readVal f h₂ v = readVal f h₁ v :=
  (read_agree hcl hag f).1

theorem readKvs_agree {n : Nat} {h₁ h₂ : Heap}
    (hcl : heapClosedBelow n h₁) (hag : heapAgreeBelow n h₁ h₂) (f : Nat) :
    ∀ kvs, kvsBound n kvs = true → readKvs f h₂ kvs = readKvs f h₁ kvs :=
  (read_agree hcl hag f).2

theorem deepcopy_extends :
    ∀ f : Nat,
      (∀ (h : Heap) (v v2 : HVal) (h' : Heap), deepcopyVal f h v = some (v2, h') →
        HeapExtends h' h ∧ v2.freshFrom h.next = true ∧ v2.bound h'.next = true) ∧
      (∀ (h : Heap) (kvs : HKvs) (kvs2 : HKvs) (h' : Heap),
        deepcopyKvs f h kvs = some (kvs2, h') →
        HeapExtends h' h ∧
          ∀ kv ∈ kvs2, kv.2.freshFrom h.next = true ∧ kv.2.bound h'.next = true) := by
  intro f
  induction f with
  | zero =>
    constructor
    · intro h v v2 h' hd; simp [deepcopyVal] at hd
    · intro h kvs kvs2 h' hd; simp [deepcopyKvs] at hd
  | succ m ih =>
    constructor
    · intro h v v2 h' hd
      cases v with
      | null =>
        simp only [deepcopyVal, Option.some.injEq, Prod.mk.injEq] at hd
        obtain ⟨hv2, hh⟩ := hd
        subst hv2; subst hh
        exact ⟨heapExtends_refl h, rfl, rfl⟩
      | bool b =>
        simp only [deepcopyVal, Option.some.injEq, Prod.mk.injEq] at hd
        obtain ⟨hv2, hh⟩ := hd
        subst hv2; subst hh
        exact ⟨heapExtends_refl h, rfl, rfl⟩
      | int k =>
        simp only [deepcopyVal, Option.some.injEq, Prod.mk.injEq] at hd
        obtain ⟨hv2, hh⟩ := hd
        subst hv2; subst hh
        exact ⟨heapExtends_refl h, rfl, rfl⟩
      | str s =>
        simp only [deepcopyVal, Option.some.injEq, Prod.mk.injEq] at hd
        obtain ⟨hv2, hh⟩ := hd
        subst hv2; subst hh
        exact ⟨heapExtends_refl h, rfl, rfl⟩
      | ref a =>
        simp only [deepcopyVal] at hd
        cases hg : h.get a with
        | none => rw [hg] at hd; simp at hd
        | some kvs =>
          rw [hg] at hd
          simp only at hd
          cases hk : deepcopyKvs m h kvs with
          | none => rw [hk] at hd; simp at hd
          | some qr =>
            obtain ⟨kvs2, h2⟩ := qr
            rw [hk] at hd
            simp only [Heap.alloc, Option.some.injEq, Prod.mk.injEq] at hd
            obtain ⟨hv2, hh⟩ := hd
            subst hv2
            subst hh
            have H := ih.2 h kvs kvs2 h2 hk
            have hbkvs2 : kvsBound h2.next kvs2 = true := by
              simp only [kvsBound, List.all_eq_true]
              intro kv hkv
              exact (H.2 kv hkv).2
            have halloc := heapExtends_alloc h2 kvs2 hbkvs2
            refine ⟨heapExtends_trans H.1 halloc, ?_, ?_⟩
            · simp only [HVal.freshFrom, decide_eq_true_eq]
              exact H.1.1
            · simp only [HVal.bound, decide_eq_true_eq]
              exact Nat.lt_succ_self _
    · intro h kvs kvs2 h' hd
      cases kvs with
      | nil =>
        simp only [deepcopyKvs, Option.some.injEq, Prod.mk.injEq] at hd
        obtain ⟨hk2, hh⟩ := hd
        subst hk2
        subst hh
        exact ⟨heapExtends_refl h, by simp⟩
      | cons kv rest =>
        obtain ⟨k, v⟩ := kv
        simp only [deepcopyKvs] at hd
        cases hv : deepcopyVal m h v with
        | none => rw [hv] at hd; simp at hd
        | some pr =>
          obtain ⟨v2, h2⟩ := pr
          rw [hv] at hd
          simp only at hd
          cases hr : deepcopyKvs m h2 rest with
          | none => rw [hr] at hd; simp at hd
          | some qr =>
            obtain ⟨rest2, h3⟩ := qr
            rw [hr] at hd
            simp only [Option.some.injEq, Prod.mk.injEq] at hd
            obtain ⟨hk2, hh⟩ := hd
            subst hk2
            subst hh
            have H1 := ih.1 h v v2 h2 hv
            have H2 := ih.2 h2 rest rest2 _ hr
            refine ⟨heapExtends_trans H1.1 H2.1, ?_⟩
            intro kv hkv
            rcases List.mem_cons.1 hkv with hkv | hkv
            · subst hkv
              exact ⟨H1.2.1, HVal.bound_mono H2.1.1 H1.2.2⟩
            · have hq := H2.2 kv hkv
              exact ⟨HVal.freshFrom_mono_down H1.1.1 hq.1, hq.2⟩

theorem deepcopyVal_extends (f : Nat) :
    ∀ (h : Heap) (v v2 : HVal) (h' : Heap), deepcopyVal f h v = some (v2, h') →
      HeapExtends h' h ∧ v2.freshFrom h.next = true ∧ v2.bound h'.next = true :=
  (deepcopy_extends f).1

theorem deepcopyKvs_extends (f : Nat) :
    ∀ (h : Heap) (kvs : HKvs) (kvs2 : HKvs) (h' : Heap),
      deepcopyKvs f h kvs = some (kvs2, h') →
      HeapExtends h' h ∧
        ∀ kv ∈ kvs2, kv.2.freshFrom h.next = true ∧ kv.2.bound h'.next = true :=
  (deepcopy_extends f).2

theorem deepcopy_reads :
    ∀ f : Nat,
      (∀ (h : Heap) (v v2 : HVal) (h' : Heap), h.WF → v.bound h.next = true →
        deepcopyVal f h v = some (v2, h') →
        ∃ tr, readVal f h v = some tr ∧ readVal f h' v2 = some tr) ∧
      (∀ (h : Heap) (kvs : HKvs) (kvs2 : HKvs) (h' : Heap), h.WF →
        kvsBound h.next kvs = true →
        deepcopyKvs f h kvs = some (kvs2, h') →
        ∃ trs, readKvs f h kvs = some trs ∧ readKvs f h' kvs2 = some trs) := by
  intro f
  induction f with
  | zero =>
    constructor
    · intro h v v2 h' _ _ hd; simp [deepcopyVal] at hd
    · intro h kvs kvs2 h' _ _ hd; simp [deepcopyKvs] at hd
  | succ m ih =>
    constructor
    · intro h v v2 h' hwf hb hd
      cases v with
      | null =>
        simp only [deepcopyVal, Option.some.injEq, Prod.mk.injEq] at hd
        obtain ⟨hv2, hh⟩ := hd
        subst hv2; subst hh
        exact ⟨NObj.null, rfl, rfl⟩
      | bool b =>
        simp only [deepcopyVal, Option.some.injEq, Prod.mk.injEq] at hd
        obtain ⟨hv2, hh⟩ := hd
        subst hv2; subst hh
        exact ⟨NObj.bool b, rfl, rfl⟩
      | int k =>
        simp only [deepcopyVal, Option.some.injEq, Prod.mk.injEq] at hd
        obtain ⟨hv2, hh⟩ := hd
        subst hv2; subst hh
        exact ⟨NObj.int k, rfl, rfl⟩
      | str s =>
        simp only [deepcopyVal, Option.some.injEq, Prod.mk.injEq] at hd
        obtain ⟨hv2, hh⟩ := hd
        subst hv2; subst hh
        exact ⟨NObj.str s, rfl, rfl⟩
      | ref a =>
        simp only [deepcopyVal] at hd
        cases hg : h.get a with
        | none => rw [hg] at hd; simp at hd
        | some kvs =>
          rw [hg] at hd
          simp only at hd
          cases hk : deepcopyKvs m h kvs with
          | none => rw [hk] at hd; simp at hd
          | some qr =>
            obtain ⟨kvs2, h2⟩ := qr
            rw [hk] at hd
            simp only [Heap.alloc, Option.some.injEq, Prod.mk.injEq] at hd
            obtain ⟨hv2, hh⟩ := hd
            subst hv2
            subst hh
            have hbkvs : kvsBound h.next kvs = true := (hwf _ (Heap.get_mem hg)).2
            obtain ⟨trs, hr_h, hr_h2⟩ := ih.2 h kvs kvs2 h2 hwf hbkvs hk
            have E := deepcopyKvs_extends m h kvs kvs2 h2 hk
            have hwf2 : h2.WF := WF_extends hwf E.1
            have hbkvs2 : kvsBound h2.next kvs2 = true := by
              simp only [kvsBound, List.all_eq_true]
              intro x hx
              exact (E.2 x hx).2
            have halloc := heapExtends_alloc h2 kvs2 hbkvs2
            have hget : ((h2.alloc kvs2).2).get h2.next = some kvs2 :=
              Heap.get_alloc hwf2 kvs2
            have hr_alloc : readKvs m (h2.alloc kvs2).2 kvs2 = some trs := by
              have hag : heapAgreeBelow h2.next h2 (h2.alloc kvs2).2 :=
                extends_agreeBelow halloc
              have hcl2 : heapClosedBelow h2.next h2 := closedBelow_of_WF hwf2
              rw [readKvs_agree hcl2 hag m kvs2 hbkvs2]
              exact hr_h2
            refine ⟨NObj.dict trs, ?_, ?_⟩
            · simp only [readVal]
              rw [hg]
              simp only
              rw [hr_h]
              rfl
            · simp only [readVal]
              rw [show ((⟨h2.objs ++ [(h2.next, kvs2)], h2.next + 1⟩ : Heap)).get h2.next =
                    some kvs2 from hget]
              simp only
              rw [show readKvs m (⟨h2.objs ++ [(h2.next, kvs2)], h2.next + 1⟩ : Heap) kvs2 =
                    some trs from hr_alloc]
              rfl
    · intro h kvs kvs2 h' hwf hb hd
      cases kvs with
      | nil =>
        simp only [deepcopyKvs, Option.some.injEq, Prod.mk.injEq] at hd
        obtain ⟨hk2, hh⟩ := hd
        subst hk2
        subst hh
        exact ⟨[], rfl, rfl⟩
      | cons kv rest =>
        obtain ⟨k, v⟩ := kv
        simp only [kvsBound, List.all_cons, Bool.and_eq_true] at hb
        simp only [deepcopyKvs] at hd
        cases hv : deepcopyVal m h v with
        | none => rw [hv] at hd; simp at hd
        | some pr =>
          obtain ⟨v2, h2⟩ := pr
          rw [hv] at hd
          simp only at hd
          cases hr : deepcopyKvs m h2 rest with
          | none => rw [hr] at hd; simp at hd
          | some qr =>
            obtain ⟨rest2, h3⟩ := qr
            rw [hr] at hd
            simp only [Option.some.injEq, Prod.mk.injEq] at hd
            obtain ⟨hk2, hh⟩ := hd
            subst hk2
            subst hh
            have E1 := deepcopyVal_extends m h v v2 h2 hv
            have E2 := deepcopyKvs_extends m h2 rest rest2 _ hr
            have hwf2 : h2.WF := WF_extends hwf E1.1
            obtain ⟨tr, hrv, hrv2⟩ := ih.1 h v v2 h2 hwf hb.1 hv
            have hrest_bound : kvsBound h.next rest = true := hb.2
            have hbrest2 : kvsBound h2.next rest = true := kvsBound_mono E1.1.1 hrest_bound
            obtain ⟨trs, hrr2, hrr3⟩ := ih.2 h2 rest rest2 _ hwf2 hbrest2 hr
            have hrr_h : readKvs m h rest = some trs := by
              have hag : heapAgreeBelow h.next h h2 := extends_agreeBelow E1.1
              have hcl : heapClosedBelow h.next h := closedBelow_of_WF hwf
              rw [← readKvs_agree hcl hag m rest hrest_bound]
              exact hrr2
            have hrv3 : readVal m h3 v2 = some tr := by
              have hag23 : heapAgreeBelow h2.next h2 h3 := extends_agreeBelow E2.1
              have hcl2 : heapClosedBelow h2.next h2 := closedBelow_of_WF hwf2
              rw [readVal_agree hcl2 hag23 m v2 E1.2.2]
              exact hrv2
            refine ⟨(k, tr) :: trs, ?_, ?_⟩
            · simp only [readKvs]
              rw [hrv, hrr_h]
            · simp only [readKvs]
              rw [hrv3, hrr3]

theorem deepcopyVal_reads (f : Nat) :
    ∀ (h : Heap) (v v2 : HVal) (h' : Heap), h.WF → v.bound h.next = true →
      deepcopyVal f h v = some (v2, h') →
      ∃ tr, readVal f h v = some tr ∧ readVal f h' v2 = some tr :=
  (deepcopy_reads f).1

/-- Claim C6: `QueryPart.query` returns a deep copy of the stored
fragment.  On a well-formed heap, a successful read of the `query`
property (a) leaves the original heap objects untouched and allocates the
copy only at fresh addresses (`HeapExtends`, with a fresh root), (b) the
copy reads back to exactly the stored fragment's content, and (c) mutating
any part of the copy — a write at any fresh address, hence at any nesting
depth of the returned mapping — leaves the internal fragment's content,
its content hash, and the result of every later read of `query`
unchanged. -/
theorem querypart_query_returns_deep_copy (p : QueryPartH) (fuel : Nat) (h : Heap)
    (hwf : h.wfB = true) (hb : p.i_query.bound h.next = true)
    (v2 : HVal) (h' : Heap) (hcopy : p.query fuel h = some (v2, h')) :
    HeapExtends h' h ∧ v2.freshFrom h.next = true ∧
    ∃ tr, readVal fuel h p.i_query = some tr ∧ readVal fuel h' v2 = some tr ∧
      ∀ b c, h.next ≤ b → kvsBound h'.next c = true →
        readVal fuel (h'.write b c) p.i_query = some tr ∧
        p.contentHash fuel (h'.write b c) = p.contentHash fuel h ∧
        ∀ v3 h3, deepcopyVal fuel (h'.write b c) p.i_query = some (v3, h3) →
          readVal fuel h3 v3 = some tr := by
  have hWF : h.WF := Heap.WF_of_wfB hwf
  have E := deepcopyVal_extends fuel h p.i_query v2 h' hcopy
  obtain ⟨tr, hrd, hrd2⟩ := deepcopyVal_reads fuel h p.i_query v2 h' hWF hb hcopy
  refine ⟨E.1, E.2.1, tr, hrd, hrd2, ?_⟩
  intro b c hbf hc
  have hwf' : h'.WF := WF_extends hWF E.1
  have hwf'' : (h'.write b c).WF := WF_write hwf' hc
  have hag : heapAgreeBelow h.next h (h'.write b c) := by
    intro a ha
    have hne : a ≠ b := by omega
    rw [Heap.get_write_ne hne c]
    exact extends_agreeBelow E.1 a ha
  have hcl : heapClosedBelow h.next h := closedBelow_of_WF hWF
  have hread : readVal fuel (h'.write b c) p.i_query = some tr := by
    rw [readVal_agree hcl hag fuel p.i_query hb]
    exact hrd
  refine ⟨hread, ?_, ?_⟩
  · unfold QueryPartH.contentHash
    rw [hread, hrd]
  · intro v3 h3 hd3
    have hb2 : p.i_query.bound (h'.write b c).next = true := by
      show p.i_query.bound h'.next = true
      exact HVal.bound_mono E.1.1 hb
    obtain ⟨tr3, hr3a, hr3b⟩ := deepcopyVal_reads fuel _ p.i_query v3 h3 hwf'' hb2 hd3
    rw [hread] at hr3a
    have heq : tr3 = tr := by
      injection hr3a with hr3a
      exact hr3a.symm
    rw [heq] at hr3b
    exact hr3b

/-- Concrete two-level heap for the C6 witness: address 0 holds the
fragment dict pointing at a nested dict at address 1. -/
def heapW : Heap :=
  ⟨[(0, [("TRUE_HUGO_SYMBOL", HVal.ref 1)]), (1, [("symbol", HVal.str "BRAF")])], 2⟩

/-- Concrete heap `QueryPart` whose stored fragment is the dict at
address 0 of `heapW`. -/
def partW : QueryPartH := ⟨false, true, false, HVal.ref 0, none⟩

/-- Claim C6 witness: instantiated at the concrete part and heap. -/
theorem querypart_query_returns_deep_copy_witness :
    HeapExtends ((partW.query 10 heapW).get (by decide)).2 heapW ∧
    HVal.freshFrom heapW.next ((partW.query 10 heapW).get (by decide)).1 = true ∧
    ∃ tr, readVal 10 heapW partW.i_query = some tr ∧
      readVal 10 ((partW.query 10 heapW).get (by decide)).2
        ((partW.query 10 heapW).get (by decide)).1 = some tr ∧
      ∀ b c, heapW.next ≤ b →
        kvsBound ((partW.query 10 heapW).get (by decide)).2.next c = true →
        readVal 10 (((partW.query 10 heapW).get (by decide)).2.write b c) partW.i_query =
          some tr ∧
        partW.contentHash 10 (((partW.query 10 heapW).get (by decide)).2.write b c) =
          partW.contentHash 10 heapW ∧
        ∀ v3 h3,
          deepcopyVal 10 (((partW.query 10 heapW).get (by decide)).2.write b c) partW.i_query =
            some (v3, h3) →
          readVal 10 h3 v3 = some tr :=
  querypart_query_returns_deep_copy partW 10 heapW (by decide) (by decide)
    ((partW.query 10 heapW).get (by decide)).1 ((partW.query 10 heapW).get (by decide)).2
    (by decide)

end Matchengine
